import Mathlib

/-!
Shallow embedding of the variable and scope engine of the ion shell
(`src/lib/shell/variables/mod.rs`), together with proofs about its
lookup, assignment, removal, tilde-expansion and working-directory
operations.

Modelling conventions:
* Rust `String`/`&str` values are modelled as `List Char`.
* `FnvHashMap`/`HashMap`/`BTreeMap` containers are modelled as
  association lists; `insert` replaces the first binding of the key,
  `remove` drops every binding of the key (the Rust maps never hold
  duplicate keys, so on reachable states the two coincide with map
  semantics).
* Machine integers: `up_namespace : isize` is `Int`; `usize` indices
  are `Nat`.
* A Rust panic-style abort (`unwrap` on `None`/`Err`) is modelled
  by an `Option` result of `none`.
* Process-external collaborators (the process environment, the OS user
  database, the color table, the plugin table, root detection) are
  gathered in a `Sys` record that is passed explicitly.
-/

namespace Ion

/-- A Rust string, modelled as its list of characters. -/
abbrev RStr := List Char

/-- Association-list lookup: the value bound to the first matching key. -/
def alookup {α : Type} : List (RStr × α) → RStr → Option α
  | [], _ => none
  | (k, a) :: rest, n => if k = n then some a else alookup rest n

/-- External collaborators of the variable store: the process
environment, the OS user database (user → home directory), the color
table consulted by `c::`/`color::`, the plugin namespace table
(namespace key → function table), and whether the process is root. -/
structure Sys where
  env : List (RStr × RStr)
  users : List (RStr × RStr)
  colors : List (RStr × RStr)
  plugins : List (RStr × List (RStr × RStr))
  isRoot : Bool

/-- `env::var(name)` on the modelled process environment. -/
def envVar (sys : Sys) (name : RStr) : Option RStr :=
  alookup sys.env name

/-- The tagged union of shell variable values (`enum VariableType`).
The `Function` payload (parameters, body, description) is owned by the
external flow-control module and opaque to this core; it is modelled
as an abstract token. -/
inductive VariableType where
  | Str (s : RStr)
  | Alias (s : RStr)
  | Array (xs : List RStr)
  | HashMap (m : List (RStr × VariableType))
  | BTreeMap (m : List (RStr × VariableType))
  | Function (f : Nat)
  | None

/-- The carrier kinds dispatched on by the polymorphic `get<T>`
(`TypeId` dispatch in the source). -/
inductive VKind where
  | str
  | aliasK
  | array
  | hashMap
  | bTreeMap
  | function
deriving DecidableEq

/-- The kind of a value; the `None` sentinel has no carrier kind. -/
def kindOf : VariableType → Option VKind
  | .Str _ => some .str
  | .Alias _ => some .aliasK
  | .Array _ => some .array
  | .HashMap _ => some .hashMap
  | .BTreeMap _ => some .bTreeMap
  | .Function _ => some .function
  | .None => none

/-- Emptiness of a value, as tested by `set` before deleting: an empty
string, array or keyed map. -/
def isEmptyValue : VariableType → Bool
  | .Str s => s.isEmpty
  | .Array xs => xs.isEmpty
  | .HashMap m => m.isEmpty
  | _ => false

/-- One scope of the store: a name-to-value map plus the flag marking
it as a namespace boundary (`struct Scope`; the field `namespace` is
a Lean keyword and is rendered `nspace`). -/
structure Scope where
  vars : List (RStr × VariableType)
  nspace : Bool

/-- Lookup of a name in one scope's map (`scope.get(name)`). -/
def lookupVar (m : List (RStr × VariableType)) (n : RStr) : Option VariableType :=
  alookup m n

/-- Map insertion (`scope.insert(name, value)`): replaces the first
binding of the key, otherwise appends. -/
def insertVar (m : List (RStr × VariableType)) (n : RStr) (val : VariableType) :
    List (RStr × VariableType) :=
  match m with
  | [] => [(n, val)]
  | (k, v) :: rest => if k = n then (n, val) :: rest else (k, v) :: insertVar rest n val

/-- Map removal (`scope.remove(name)`): drops every binding of the key
(equal to dropping the first on duplicate-free maps). -/
def eraseVar (m : List (RStr × VariableType)) (n : RStr) : List (RStr × VariableType) :=
  m.filter (fun kv => kv.1 ≠ n)

/-- The variable store (`struct Variables`): the scope stack, the
cursor of the innermost active scope, and the flag byte — of which
only the `PLUGIN` bit is ever used, modelled as that bit's Boolean
value. -/
structure Variables where
  flags : Bool
  scopes : List Scope
  current : Nat

/-- Well-formedness of the cursor, an invariant of the source
(`0 ≤ current < len(scopes)`). -/
def wf (v : Variables) : Prop := v.current < v.scopes.length

/-- The active scopes in lookup order, from the current scope outward
to the globals (`fn scopes`: `iter().rev().skip(len - current - 1)`). -/
def activeScopes (v : Variables) : List Scope :=
  (v.scopes.take (v.current + 1)).reverse

/-- Reassemble the store from a transformed active-scope walk list:
the embedding of mutation through the `scopes_mut` iterator, which
hands out exactly the active scopes in walk order. -/
def withActive (v : Variables) (ws : List Scope) : Variables :=
  { v with scopes := ws.reverse ++ v.scopes.drop (v.current + 1) }

/-- Pointwise update of a list at an index. -/
def updateAt {α : Type} : List α → Nat → (α → α) → List α
  | [], _, _ => []
  | a :: rest, 0, f => f a :: rest
  | a :: rest, Nat.succ j, f => a :: updateAt rest j f

/-- The number of namespace-boundary scopes in a scope list
(`scopes().filter(|s| s.namespace).count()`). -/
def countNs (ws : List Scope) : Nat :=
  (ws.filter (fun s => s.nspace)).length

/-- Does the name start with the literal `super::`? -/
def startsWithSuper : RStr → Bool
  | 's' :: 'u' :: 'p' :: 'e' :: 'r' :: ':' :: ':' :: _ => true
  | _ => false

/-- Strip a leading `global::`, if present. -/
def dropGlobal? : RStr → Option RStr
  | 'g' :: 'l' :: 'o' :: 'b' :: 'a' :: 'l' :: ':' :: ':' :: rest => some rest
  | _ => none

/-- Does the name start with the literal `global::`? -/
def startsWithGlobal (n : RStr) : Bool :=
  (dropGlobal? n).isSome

/-- Strip every leading `super::` qualifier, counting them into the
climb count (`while name.starts_with("super::") { up_namespace += 1 }`). -/
def stripSupers : RStr → RStr × Int
  | 's' :: 'u' :: 'p' :: 'e' :: 'r' :: ':' :: ':' :: rest =>
    let p := stripSupers rest
    (p.1, p.2 + 1)
  | n => (n, 0)

/-- A name with `k` copies of the `super::` qualifier in front. -/
def superTimes : Nat → RStr → RStr
  | 0, n => n
  | Nat.succ k, n => 's' :: 'u' :: 'p' :: 'e' :: 'r' :: ':' :: ':' :: superTimes k n

/-- The scope walk of `get_ref`: a matching function is returned
immediately; any other match only when the climb count is zero;
crossing a namespace-boundary scope decrements the (signed) climb
count, with no floor. -/
def get_refWalk : List Scope → RStr → Int → Option VariableType
  | [], _, _ => none
  | s :: rest, n, up =>
    match lookupVar s.vars n with
    | some (VariableType.Function f) => some (VariableType.Function f)
    | some val =>
      if up = 0 then some val
      else get_refWalk rest n (if s.nspace then up - 1 else up)
    | none => get_refWalk rest n (if s.nspace then up - 1 else up)

/-- `Variables::get_ref`: strip a leading `global::` (climb count :=
number of active namespace boundaries) or repeated `super::` prefixes
(climb count := their number), then walk the active scopes. -/
def get_ref (v : Variables) (name : RStr) : Option VariableType :=
  match dropGlobal? name with
  | some n =>
    get_refWalk (activeScopes v) n (countNs (activeScopes v) : Int)
  | none =>
    let p := stripSupers name
    get_refWalk (activeScopes v) p.1 p.2

/-- The scope walk of `get_mut`: return the first match together with
its walk position (0 = current scope); stop at the first
namespace-boundary scope whose own lookup failed. -/
def get_mutWalk : List Scope → RStr → Option (Nat × VariableType)
  | [], _ => none
  | s :: rest, n =>
    match lookupVar s.vars n with
    | some val => some (0, val)
    | none =>
      if s.nspace then none
      else (get_mutWalk rest n).map (fun pv => (pv.1 + 1, pv.2))

/-- `Variables::get_mut`, returning the walk position of the located
slot: names qualified by `super::` or `global::` are refused (outer
namespaces are read-only). -/
def get_mutIdx (v : Variables) (name : RStr) : Option (Nat × VariableType) :=
  if startsWithSuper name || startsWithGlobal name then none
  else get_mutWalk (activeScopes v) name

/-- `Variables::get_mut` as the located value alone. -/
def get_mut (v : Variables) (name : RStr) : Option VariableType :=
  (get_mutIdx v name).map (fun pv => pv.2)

/-- The scope walk of `remove_variable`: delete the first matching
entry, crossing every scope, and return it. -/
def removeWalk : List Scope → RStr → Option VariableType × List Scope
  | [], _ => (none, [])
  | s :: rest, n =>
    match lookupVar s.vars n with
    | some val => (some val, { s with vars := eraseVar s.vars n } :: rest)
    | none =>
      let p := removeWalk rest n
      (p.1, s :: p.2)

/-- `Variables::remove_variable`: the removed value (if any) and the
store afterwards. -/
def remove_variable (v : Variables) (name : RStr) : Option VariableType × Variables :=
  let p := removeWalk (activeScopes v) name
  (p.1, withActive v p.2)

/-- `Variables::shadow`: insert directly into the current scope. -/
def shadow (v : Variables) (name : RStr) (val : VariableType) : Variables :=
  withActive v (updateAt (activeScopes v) 0 (fun s => { s with vars := insertVar s.vars name val }))

/-- Overwrite, in place, the slot at walk position `p` that `get_mut`
located (the `mem::replace` through the borrowed slot). -/
def updateSlot (v : Variables) (p : Nat) (name : RStr) (val : VariableType) : Variables :=
  withActive v (updateAt (activeScopes v) p (fun s => { s with vars := insertVar s.vars name val }))

/-- `Variables::disable_plugins` (`flags &= !PLUGIN`). -/
def disable_plugins (v : Variables) : Variables := { v with flags := false }

/-- `Variables::enable_plugins` (`flags |= PLUGIN`). -/
def enable_plugins (v : Variables) : Variables := { v with flags := true }

/-- `Variables::has_plugin_support` (`flags & PLUGIN == PLUGIN`). -/
def has_plugin_support (v : Variables) : Bool := v.flags

/-- `Variables::set`: locate the nearest visible entry with `get_mut`;
overwrite in place on a kind match (deleting on empty string / array /
keyed map, intercepting `NS_PLUGINS`); otherwise shadow into the
current scope. The wildcard arm of the source match also covers a
located `BTreeMap` or `None` entry, which is therefore shadowed, never
overwritten. -/
def set (v : Variables) (name : RStr) (var : VariableType) : Variables :=
  match get_mutIdx v name with
  | some (p, VariableType.Str _) =>
    if name = [] then v
    else
      match var with
      | VariableType.Str s =>
        if s = [] then (remove_variable v name).2
        else if name = ("NS_PLUGINS".toList) then
          if s = ("0".toList) then disable_plugins v
          else if s = ("1".toList) then enable_plugins v
          else v
        else updateSlot v p name (VariableType.Str s)
      | _ => shadow v name var
  | some (p, VariableType.Alias _) =>
    if name = [] then v
    else
      match var with
      | VariableType.Alias a => updateSlot v p name (VariableType.Alias a)
      | _ => shadow v name var
  | some (p, VariableType.Array _) =>
    if name = [] then v
    else
      match var with
      | VariableType.Array xs =>
        if xs = [] then (remove_variable v name).2
        else updateSlot v p name (VariableType.Array xs)
      | _ => shadow v name var
  | some (p, VariableType.HashMap _) =>
    if name = [] then v
    else
      match var with
      | VariableType.HashMap m =>
        if m.isEmpty then (remove_variable v name).2
        else updateSlot v p name (VariableType.HashMap m)
      | _ => shadow v name var
  | some (p, VariableType.Function _) =>
    if name = [] then v
    else
      match var with
      | VariableType.Function f => updateSlot v p name (VariableType.Function f)
      | _ => shadow v name var
  | _ => shadow v name var

/-- `Vec::push` of a fresh scope / reuse of a retained slot
(`Variables::new_scope`): advance the cursor; push a new empty scope
when past the end, otherwise only reset the retained slot's namespace
flag. -/
def new_scope (v : Variables) (ns : Bool) : Variables :=
  let cur := v.current + 1
  if v.scopes.length ≤ cur then
    { v with current := cur, scopes := v.scopes ++ [{ vars := [], nspace := ns }] }
  else
    { v with current := cur, scopes := updateAt v.scopes cur (fun s => { s with nspace := ns }) }

/-- `Variables::pop_scope`: clear the current scope in place and step
the cursor back (the backing slot is retained). -/
def pop_scope (v : Variables) : Variables :=
  { v with
    scopes := updateAt v.scopes v.current (fun s => { s with vars := [] }),
    current := v.current - 1 }

/-- `Variables::pop_scopes(index)`: reset the cursor to `index` and
drain every scope strictly above it, yielding the drained scopes. -/
def pop_scopesOp (v : Variables) (index : Nat) : Variables × List Scope :=
  ({ v with current := index, scopes := v.scopes.take (index + 1) },
   v.scopes.drop (index + 1))

/-- `Variables::append_scopes`: drop the retained slots above the
cursor, then push the given scopes and advance the cursor past them. -/
def append_scopes (v : Variables) (new : List Scope) : Variables :=
  { v with
    scopes := v.scopes.take (v.current + 1) ++ new,
    current := v.current + new.length }

/-- `Variables::default`, parameterised by the initial global map
(whose contents — `PID`, `HISTFILE`, … — depend on the process
state): one populated global scope, cursor 0, plugins disabled. -/
def defaultVariables (globals : List (RStr × VariableType)) : Variables :=
  { flags := false, scopes := [{ vars := globals, nspace := false }], current := 0 }

/-- Split a name at its first `::` (`name.find("::")`), yielding the
namespace part and the variable part. -/
def splitNs : RStr → Option (RStr × RStr)
  | [] => none
  | ':' :: ':' :: rest => some ([], rest)
  | c :: rest => (splitNs rest).map (fun p => (c :: p.1, p.2))

/-- The plain-variable path of `get::<Value>`: an in-scope string via
`get_ref`, else a process environment variable of the same name. -/
def lookupString (sys : Sys) (v : Variables) (name : RStr) : Option RStr :=
  match get_ref v name with
  | some (VariableType.Str val) => some val
  | _ => envVar sys name

/-- The value of one hexadecimal digit. -/
def hexDigit? (c : Char) : Option Nat :=
  if '0' ≤ c ∧ c ≤ '9' then some (c.toNat - '0'.toNat)
  else if 'a' ≤ c ∧ c ≤ 'f' then some (c.toNat - 'a'.toNat + 10)
  else if 'A' ≤ c ∧ c ≤ 'F' then some (c.toNat - 'A'.toNat + 10)
  else none

/-- Accumulate hexadecimal digits into a `u8`, failing on a non-digit
or on overflow past 255. -/
def hexFold : RStr → Nat → Option Nat
  | [], acc => some acc
  | c :: rest, acc =>
    match hexDigit? c with
    | some d => if acc * 16 + d < 256 then hexFold rest (acc * 16 + d) else none
    | none => none

/-- `u8::from_str_radix(s, 16)` followed by `as char`: an optional
leading `+`, then at least one hex digit, value at most 255. -/
def hexParse (s : RStr) : Option Char :=
  let t := if s.head? = some '+' then s.drop 1 else s
  if t.isEmpty then none
  else (hexFold t 0).map Char.ofNat

/-- Rust `str::replace` on an input with a non-empty pattern: replace
each leftmost non-overlapping occurrence. The fuel argument only bounds
the scan (every step consumes at least one character, so a fuel of the
input length is enough); it keeps the recursion structural. -/
def replaceAllGo (pat rep : RStr) : Nat → RStr → RStr
  | _, [] => []
  | 0, l => l
  | Nat.succ fuel, c :: rest =>
    if pat.isPrefixOf (c :: rest) then rep ++ replaceAllGo pat rep fuel (rest.drop (pat.length - 1))
    else c :: replaceAllGo pat rep fuel rest

/-- Rust `str::replace`: every non-overlapping occurrence of the
pattern, scanning left to right (an empty pattern matches at every
character boundary). -/
def replaceAll (s pat rep : RStr) : RStr :=
  if pat.isEmpty then rep ++ s.foldr (fun c acc => c :: (rep ++ acc)) []
  else replaceAllGo pat rep s.length s

/-- `Variables::get_simplified_directory` (**SWD**): the process
`PWD` with the value of `HOME` (or the literal `?` when `HOME` is
unset) substituted by `~`; `none` models the `unwrap` panic when `PWD`
is unset. `self.get::<Value>("HOME")` is inlined to its
plain-variable path, which is what it reduces to on the name `HOME`. -/
def get_simplified_directory (sys : Sys) (v : Variables) : Option RStr :=
  let home := (lookupString sys v ("HOME".toList)).getD ("?".toList)
  (envVar sys ("PWD".toList)).map (fun pwd => replaceAll pwd home ("~".toList))

/-- Split a string at `/` characters (Rust `str::split('/')`). -/
def splitSlash : RStr → List RStr
  | [] => [[]]
  | c :: rest =>
    if c = '/' then [] :: splitSlash rest
    else (splitSlash rest).modifyHead (fun seg => c :: seg)

/-- The non-empty `/`-separated segments of a path
(`swd.split('/').filter(|s| !s.is_empty())`). -/
def splitSegs (s : RStr) : List RStr :=
  (splitSlash s).filter (fun seg => !seg.isEmpty)

/-- Compress one path segment to its first grapheme cluster, keeping
the following cluster as well when the first is `.`; grapheme clusters
are modelled at character granularity (exact on ASCII). `none` models
the `unwrap` panic when a needed cluster is missing. -/
def compressSeg : RStr → Option RStr
  | [] => none
  | c :: rest =>
    if c = '.' then
      match rest with
      | d :: _ => some [c, d]
      | [] => none
    else some [c]

/-- Compress every parent segment in order (the `for element in
&elements[0..len-1]` loop). -/
def compressAll : List RStr → Option (List RStr)
  | [] => some []
  | e :: es =>
    match compressSeg e, compressAll es with
    | some c, some cs => some (c :: cs)
    | _, _ => none

/-- The minimisation step of **MWD** on an already-computed simplified
directory: with more than two non-empty segments, compress every
segment but the last and rejoin with `/`; otherwise return the input
unchanged. -/
def minimize (swd : RStr) : Option RStr :=
  let elements := splitSegs swd
  if 2 < elements.length then
    match compressAll elements.dropLast with
    | some cs => some ((cs.map (fun c => c ++ ['/'])).flatten ++ elements.getLastD [])
    | none => none
  else some swd

/-- `Variables::get_minimal_directory` (**MWD**): the minimisation
step applied to **SWD**. -/
def get_minimal_directory (sys : Sys) (v : Variables) : Option RStr :=
  match get_simplified_directory sys v with
  | some swd => minimize swd
  | none => none

/-- The string path of the polymorphic `get::<T>` (`T = Value`):
special names `MWD`/`SWD`, then namespace dispatch on the first `::`
(`c`/`color`, `x`/`hex`, `env`, plugin namespaces), else the
plain-variable path. Plugin execution is modelled as a lookup in the
`Sys` plugin table; as in the source, the namespace is looked up under
the full `ns::var` name. -/
def getString (sys : Sys) (v : Variables) (name : RStr) : Option RStr :=
  if name = ("MWD".toList) then get_minimal_directory sys v
  else if name = ("SWD".toList) then get_simplified_directory sys v
  else
    match splitNs name with
    | some (ns, varName) =>
      if ns = ("c".toList) ∨ ns = ("color".toList) then alookup sys.colors varName
      else if ns = ("x".toList) ∨ ns = ("hex".toList) then (hexParse varName).map (fun c => [c])
      else if ns = ("env".toList) then envVar sys varName
      else if ns = ("super".toList) ∨ ns = ("global".toList) then lookupString sys v name
      else if sys.isRoot then none
      else if has_plugin_support v = false then none
      else
        match alookup sys.plugins name with
        | some table => alookup table varName
        | none => none
    | none => lookupString sys v name

/-- The polymorphic `Variables::get<T>`, with the `TypeId` dispatch
modelled as a kind argument; non-string kinds are a direct `get_ref`
filtered by variant. -/
def getOf (sys : Sys) (v : Variables) (k : VKind) (name : RStr) : Option VariableType :=
  match k with
  | .str => (getString sys v name).map VariableType.Str
  | .aliasK =>
    match get_ref v name with
    | some (VariableType.Alias a) => some (VariableType.Alias a)
    | _ => none
  | .array =>
    match get_ref v name with
    | some (VariableType.Array xs) => some (VariableType.Array xs)
    | _ => none
  | .hashMap =>
    match get_ref v name with
    | some (VariableType.HashMap m) => some (VariableType.HashMap m)
    | _ => none
  | .bTreeMap =>
    match get_ref v name with
    | some (VariableType.BTreeMap m) => some (VariableType.BTreeMap m)
    | _ => none
  | .function =>
    match get_ref v name with
    | some (VariableType.Function f) => some (VariableType.Function f)
    | _ => none

/-- The index of the first `/` or `$` in a word (the split point of
the tilde prefix). -/
def findSepIdx : RStr → Nat → Option Nat
  | [], _ => none
  | c :: rest, i => if c = '/' ∨ c = '$' then some i else findSepIdx rest (i + 1)

/-- The value of one decimal digit. -/
def decDigit? (c : Char) : Option Nat :=
  if '0' ≤ c ∧ c ≤ '9' then some (c.toNat - '0'.toNat) else none

/-- Accumulate decimal digits (machine-width overflow of `usize` is
not modelled; the parsed directory-stack indices are tiny). -/
def decFold : RStr → Nat → Option Nat
  | [], acc => some acc
  | c :: rest, acc =>
    match decDigit? c with
    | some d => decFold rest (acc * 10 + d)
    | none => none

/-- `str::parse::<usize>`: an optional leading `+`, then at least one
decimal digit. -/
def parseNatR (s : RStr) : Option Nat :=
  let t := if s.head? = some '+' then s.drop 1 else s
  if t.isEmpty then none else decFold t 0

/-- Modelled from the spec: the directory stack collaborator's
`dir_from_bottom(num)` — the directory at index `num` from the bottom
of the stack. -/
def dirFromBottom (stack : List RStr) (num : Nat) : Option RStr :=
  stack.get? num

/-- Modelled from the spec: the directory stack collaborator's
`dir_from_top(num)` — the directory at index `num` from the top of
the stack. -/
def dirFromTop (stack : List RStr) (num : Nat) : Option RStr :=
  stack.reverse.get? num

/-- Modelled from the spec: `sys::env::home_dir()`, the external sys
crate's home-directory query — `$HOME` from the process environment,
absent when unset. -/
def homeDir (sys : Sys) : Option RStr :=
  envVar sys ("HOME".toList)

/-- `Variables::tilde_expansion`: split the word at the first `/` or
`$` into a tilde prefix and a literal remainder, then dispatch on the
prefix — `` (home), `+` (PWD or `?`), `-` (OLDPWD or absent),
`[+-]N` (directory stack, remainder not appended, as in the source),
or a user name (OS user database). Callers pass words starting with
`~`. -/
def tilde_expansion (sys : Sys) (v : Variables) (dirStack : List RStr) (word : RStr) :
    Option RStr :=
  let split :=
    match findSepIdx word 0 with
    | some ind => ((word.drop 1).take (ind - 1), word.drop ind)
    | none => (word.drop 1, [])
  let tildePre := split.1
  let remainder := split.2
  if tildePre = [] then (homeDir sys).map (fun home => home ++ remainder)
  else if tildePre = ['+'] then
    match envVar sys ("PWD".toList) with
    | some pv => some (pv ++ remainder)
    | none => some ('?' :: remainder)
  else if tildePre = ['-'] then
    (getString sys v ("OLDPWD".toList)).map (fun oldpwd => oldpwd ++ remainder)
  else
    let numSplit :=
      if tildePre.head? = some '+' then (false, tildePre.drop 1)
      else if tildePre.head? = some '-' then (true, tildePre.drop 1)
      else (false, tildePre)
    match parseNatR numSplit.2 with
    | some num => if numSplit.1 then dirFromTop dirStack num else dirFromBottom dirStack num
    | none => (alookup sys.users tildePre).map (fun home => home ++ remainder)

/-! ### Helper lemmas about the scope walks -/

theorem countNs_cons (s : Scope) (l : List Scope) :
    countNs (s :: l) = (if s.nspace then 1 else 0) + countNs l := by
  by_cases hs : s.nspace <;> simp [countNs, List.filter_cons, hs, Nat.add_comm]

theorem stripSupers_of_not_super (n : RStr) (h : startsWithSuper n = false) :
    stripSupers n = (n, 0) := by
  rw [stripSupers.eq_def]
  split
  · rename_i rest
    simp [startsWithSuper] at h
  · rfl

theorem stripSupers_superTimes : ∀ (k : Nat) (n : RStr), startsWithSuper n = false →
    stripSupers (superTimes k n) = (n, (k : Int))
  | 0, n, h => by simpa [superTimes] using stripSupers_of_not_super n h
  | k + 1, n, h => by
    have ih := stripSupers_superTimes k n h
    simp [superTimes, stripSupers, ih]

theorem get_ref_superTimes (v : Variables) (k : Nat) (n : RStr)
    (h1 : startsWithSuper n = false) (h2 : startsWithGlobal n = false) :
    get_ref v (superTimes k n) = get_refWalk (activeScopes v) n (k : Int) := by
  have hd : dropGlobal? (superTimes k n) = none := by
    cases k with
    | zero =>
      cases hO : dropGlobal? n with
      | none => simpa [superTimes] using hO
      | some m => simp [startsWithGlobal, hO] at h2
    | succ k => rfl
  simp [get_ref, hd, stripSupers_superTimes k n h1]

theorem get_ref_global (v : Variables) (n : RStr) :
    get_ref v ('g' :: 'l' :: 'o' :: 'b' :: 'a' :: 'l' :: ':' :: ':' :: n)
      = get_refWalk (activeScopes v) n (countNs (activeScopes v) : Int) := rfl

theorem get_refWalk_some_char : ∀ (ws : List Scope) (n : RStr) (u : Int) (val : VariableType),
    get_refWalk ws n u = some val → (∀ f, val ≠ VariableType.Function f) →
    ∃ p s, ws[p]? = some s ∧ lookupVar s.vars n = some val ∧
      (countNs (List.take p ws) : Int) = u := by
  intro ws
  induction ws with
  | nil => intro n u val h _; simp [get_refWalk] at h
  | cons s rest ih =>
    intro n u val h hnf
    cases hl : lookupVar s.vars n with
    | none =>
      simp only [get_refWalk, hl] at h
      obtain ⟨p, s', h1, h2, h3⟩ := ih n _ val h hnf
      refine ⟨p + 1, s', by simpa using h1, h2, ?_⟩
      rw [List.take_succ_cons, countNs_cons]
      by_cases hns : s.nspace <;> simp [hns] at h3 ⊢ <;> omega
    | some w =>
      cases w with
      | Function f =>
        simp only [get_refWalk, hl] at h
        exact absurd (Option.some.inj h).symm (hnf f)
      | _ =>
        simp only [get_refWalk, hl] at h
        by_cases hu : u = 0
        · rw [if_pos hu] at h
          exact ⟨0, s, by simp, by rw [hl, h], by simpa using hu.symm⟩
        · rw [if_neg hu] at h
          obtain ⟨p, s', h1, h2, h3⟩ := ih n _ val h hnf
          refine ⟨p + 1, s', by simpa using h1, h2, ?_⟩
          rw [List.take_succ_cons, countNs_cons]
          by_cases hns : s.nspace <;> simp [hns] at h3 ⊢ <;> omega

theorem get_refWalk_function_first : ∀ (ws : List Scope) (p : Nat) (n : RStr) (u : Int)
    (s : Scope) (f : Nat),
    ws[p]? = some s → lookupVar s.vars n = some (VariableType.Function f) →
    (∀ q, q < p → ∀ s', ws[q]? = some s' → lookupVar s'.vars n = none) →
    get_refWalk ws n u = some (VariableType.Function f) := by
  intro ws
  induction ws with
  | nil => intro p n u s f h _ _; simp at h
  | cons s0 rest ih =>
    intro p n u s f hp hl hq
    cases p with
    | zero =>
      simp at hp
      subst hp
      simp [get_refWalk, hl]
    | succ p =>
      have h0 : lookupVar s0.vars n = none := hq 0 (Nat.succ_pos p) s0 (by simp)
      simp only [get_refWalk, h0]
      exact ih p n _ s f (by simpa using hp) hl
        (fun q hqp s' hs' => hq (q + 1) (Nat.succ_lt_succ hqp) s' (by simpa using hs'))

theorem get_mutWalk_some : ∀ (ws : List Scope) (n : RStr) (p : Nat) (val : VariableType),
    get_mutWalk ws n = some (p, val) →
    ∃ s, ws[p]? = some s ∧ lookupVar s.vars n = some val ∧
      ∀ q, q < p → ∀ s', ws[q]? = some s' → lookupVar s'.vars n = none ∧ s'.nspace = false := by
  intro ws
  induction ws with
  | nil => intro n p val h; simp [get_mutWalk] at h
  | cons s rest ih =>
    intro n p val h
    cases hl : lookupVar s.vars n with
    | some w =>
      simp only [get_mutWalk, hl] at h
      obtain ⟨hp, hv⟩ := Prod.mk.injEq .. ▸ Option.some.inj h
      subst hv
      exact ⟨s, by simp [← hp], hl, by omega⟩
    | none =>
      by_cases hns : s.nspace
      · simp [get_mutWalk, hl, hns] at h
      · cases hrec : get_mutWalk rest n with
        | none => simp [get_mutWalk, hl, hns, hrec] at h
        | some pv =>
          obtain ⟨p', val'⟩ := pv
          simp [get_mutWalk, hl, hns, hrec] at h
          obtain ⟨hp, hv⟩ := h
          obtain ⟨s', h1, h2, h3⟩ := ih n p' val' hrec
          rw [← hv]
          refine ⟨s', by simpa [← hp] using h1, h2, ?_⟩
          intro q hq s'' hs''
          cases q with
          | zero =>
            simp at hs''
            subst hs''
            exact ⟨hl, by simpa using hns⟩
          | succ q =>
            exact h3 q (by omega) s'' (by simpa using hs'')

theorem get_mutWalk_found : ∀ (ws : List Scope) (n : RStr) (p : Nat) (s : Scope)
    (val : VariableType),
    ws[p]? = some s → lookupVar s.vars n = some val →
    (∀ q, q < p → ∀ s', ws[q]? = some s' → lookupVar s'.vars n = none ∧ s'.nspace = false) →
    get_mutWalk ws n = some (p, val) := by
  intro ws
  induction ws with
  | nil => intro n p s val h _ _; simp at h
  | cons s0 rest ih =>
    intro n p s val hp hl hq
    cases p with
    | zero =>
      simp at hp
      subst hp
      simp [get_mutWalk, hl]
    | succ p =>
      obtain ⟨h0, hns0⟩ := hq 0 (Nat.succ_pos p) s0 (by simp)
      simp only [get_mutWalk, h0, hns0, if_false]
      rw [ih n p s val (by simpa using hp) hl
        (fun q hqp s' hs' => hq (q + 1) (Nat.succ_lt_succ hqp) s' (by simpa using hs'))]
      rfl

theorem get_mutWalk_boundary : ∀ (ws : List Scope) (n : RStr) (b : Nat) (sB : Scope),
    ws[b]? = some sB → sB.nspace = true →
    (∀ q, q ≤ b → ∀ s', ws[q]? = some s' → lookupVar s'.vars n = none) →
    (∀ q, q < b → ∀ s', ws[q]? = some s' → s'.nspace = false) →
    get_mutWalk ws n = none := by
  intro ws
  induction ws with
  | nil => intro n b sB h _ _ _; simp at h
  | cons s0 rest ih =>
    intro n b sB hb hns hq hq'
    cases b with
    | zero =>
      simp at hb
      subst hb
      simp [get_mutWalk, hq 0 (Nat.le_refl 0) s0 (by simp), hns]
    | succ b =>
      have h0 : lookupVar s0.vars n = none := hq 0 (Nat.zero_le _) s0 (by simp)
      have hns0 : s0.nspace = false := hq' 0 (Nat.succ_pos b) s0 (by simp)
      simp only [get_mutWalk, h0, hns0, if_false]
      rw [ih n b sB (by simpa using hb) hns
        (fun q hqb s' hs' => hq (q + 1) (by omega) s' (by simpa using hs'))
        (fun q hqb s' hs' => hq' (q + 1) (by omega) s' (by simpa using hs'))]
      rfl

theorem lookupVar_insertVar_self (m : List (RStr × VariableType)) (n : RStr)
    (val : VariableType) : lookupVar (insertVar m n val) n = some val := by
  induction m with
  | nil => simp [insertVar, lookupVar, alookup]
  | cons kv rest ih =>
    obtain ⟨k, w⟩ := kv
    by_cases hk : k = n
    · simp [insertVar, hk, lookupVar, alookup]
    · simpa [insertVar, hk, lookupVar, alookup] using ih

theorem lookupVar_eraseVar_self (m : List (RStr × VariableType)) (n : RStr) :
    lookupVar (eraseVar m n) n = none := by
  induction m with
  | nil => simp [eraseVar, lookupVar, alookup]
  | cons kv rest ih =>
    obtain ⟨k, w⟩ := kv
    by_cases hk : k = n
    · simpa [eraseVar, hk, lookupVar, alookup] using ih
    · simpa [eraseVar, hk, lookupVar, alookup] using ih

theorem length_updateAt {α : Type} : ∀ (l : List α) (i : Nat) (f : α → α),
    (updateAt l i f).length = l.length
  | [], _, _ => rfl
  | _ :: rest, 0, f => by simp [updateAt]
  | _ :: rest, Nat.succ j, f => by simp [updateAt, length_updateAt rest j f]

theorem get_refWalk_update_found : ∀ (ws : List Scope) (n : RStr) (p : Nat)
    (w val : VariableType),
    get_mutWalk ws n = some (p, w) →
    get_refWalk (updateAt ws p (fun s => { s with vars := insertVar s.vars n val })) n 0
      = some val := by
  intro ws
  induction ws with
  | nil => intro n p w val h; simp [get_mutWalk] at h
  | cons s rest ih =>
    intro n p w val h
    cases hl : lookupVar s.vars n with
    | some w' =>
      simp only [get_mutWalk, hl] at h
      obtain ⟨hp, hv⟩ := Prod.mk.injEq .. ▸ Option.some.inj h
      rw [← hp]
      cases val <;> simp [updateAt, get_refWalk, lookupVar_insertVar_self]
    | none =>
      by_cases hns : s.nspace
      · simp [get_mutWalk, hl, hns] at h
      · cases hrec : get_mutWalk rest n with
        | none => simp [get_mutWalk, hl, hns, hrec] at h
        | some pv =>
          obtain ⟨p', w'⟩ := pv
          simp [get_mutWalk, hl, hns, hrec] at h
          obtain ⟨hp, hv⟩ := h
          rw [← hp]
          simp only [updateAt, get_refWalk, hl, hns, if_false]
          exact ih n p' w val (by rw [hrec, hv])

theorem get_refWalk_update_head : ∀ (ws : List Scope) (n : RStr) (val : VariableType),
    ws ≠ [] →
    get_refWalk (updateAt ws 0 (fun s => { s with vars := insertVar s.vars n val })) n 0
      = some val := by
  intro ws n val h
  cases ws with
  | nil => exact absurd rfl h
  | cons s rest => cases val <;> simp [updateAt, get_refWalk, lookupVar_insertVar_self]

theorem removeWalk_found : ∀ (ws : List Scope) (n : RStr) (p : Nat) (s : Scope)
    (val : VariableType),
    ws[p]? = some s → lookupVar s.vars n = some val →
    (∀ q, q < p → ∀ s', ws[q]? = some s' → lookupVar s'.vars n = none) →
    removeWalk ws n = (some val, updateAt ws p (fun s => { s with vars := eraseVar s.vars n })) := by
  intro ws
  induction ws with
  | nil => intro n p s val h _ _; simp at h
  | cons s0 rest ih =>
    intro n p s val hp hl hq
    cases p with
    | zero =>
      simp at hp
      subst hp
      simp [removeWalk, hl, updateAt]
    | succ p =>
      have h0 : lookupVar s0.vars n = none := hq 0 (Nat.succ_pos p) s0 (by simp)
      simp only [removeWalk, h0, updateAt]
      rw [ih n p s val (by simpa using hp) hl
        (fun q hqp s' hs' => hq (q + 1) (Nat.succ_lt_succ hqp) s' (by simpa using hs'))]

theorem removeWalk_none : ∀ (ws : List Scope) (n : RStr),
    (∀ (q : Nat) (s' : Scope), ws[q]? = some s' → lookupVar s'.vars n = none) →
    removeWalk ws n = (none, ws) := by
  intro ws
  induction ws with
  | nil => intro n _; rfl
  | cons s0 rest ih =>
    intro n hq
    have h0 : lookupVar s0.vars n = none := hq 0 s0 (by simp)
    simp only [removeWalk, h0]
    rw [ih n (fun q s' hs' => hq (q + 1) s' (by simpa using hs'))]

theorem length_removeWalk : ∀ (ws : List Scope) (n : RStr),
    (removeWalk ws n).2.length = ws.length := by
  intro ws
  induction ws with
  | nil => intro n; rfl
  | cons s0 rest ih =>
    intro n
    cases hl : lookupVar s0.vars n <;> simp [removeWalk, hl, ih]

theorem length_activeScopes (v : Variables) (h : wf v) :
    (activeScopes v).length = v.current + 1 := by
  unfold wf at h
  simp [activeScopes, List.length_take]
  omega

theorem activeScopes_withActive (v : Variables) (ws : List Scope)
    (h : ws.length = v.current + 1) :
    activeScopes (withActive v ws) = ws := by
  simp only [activeScopes, withActive]
  rw [List.take_append_of_le_length (by simp [h]), List.take_of_length_le (by simp [h]),
    List.reverse_reverse]

theorem withActive_self (v : Variables) : withActive v (activeScopes v) = v := by
  simp [withActive, activeScopes, List.take_append_drop]

theorem scopes_withActive_high (v : Variables) (ws : List Scope) (i : Nat)
    (hlen : ws.length = v.current + 1) (hi : v.current < i) :
    (withActive v ws).scopes[i]? = v.scopes[i]? := by
  simp only [withActive]
  rw [List.getElem?_append_right (by simp [hlen]; omega)]
  rw [List.getElem?_drop]
  congr 1
  simp [hlen]
  omega

/-! ### Concrete stores used as witnesses and counterexamples -/

/-- A system with an empty environment and no collaborators. -/
def sysEmpty : Sys := { env := [], users := [], colors := [], plugins := [], isRoot := false }

/-- An empty namespace-boundary scope. -/
def emptyNsScope : Scope := { vars := [], nspace := true }

/-- A non-boundary scope binding `x` to the string `1`. -/
def scopeX1 : Scope := { vars := [(['x'], VariableType.Str ['1'])], nspace := false }

/-- A boundary scope binding `x` to the string `2`. -/
def scopeX2ns : Scope := { vars := [(['x'], VariableType.Str ['2'])], nspace := true }

/-- A non-boundary scope binding `f` to a function. -/
def scopeFn : Scope := { vars := [(['f'], VariableType.Function 7)], nspace := false }

/-- Globals binding `x`, below two namespace boundaries, cursor on the
innermost: the entry lies beyond 2 boundaries while `super::x` climbs 1. -/
def vC1x : Variables :=
  { flags := false, scopes := [scopeX1, emptyNsScope, emptyNsScope], current := 2 }

/-- Globals binding `x`, below one namespace boundary. -/
def vC6x : Variables :=
  { flags := false, scopes := [scopeX1, emptyNsScope], current := 1 }

/-- Globals binding a function `f`, below one namespace boundary. -/
def vFn : Variables :=
  { flags := false, scopes := [scopeFn, emptyNsScope], current := 1 }

/-- Globals binding `x`, with a boundary scope that itself binds `x`
as the current scope. -/
def vC2w : Variables :=
  { flags := false, scopes := [scopeX1, scopeX2ns], current := 1 }

/-! ### C1 -/

/-- C1 counterexample: in `vC1x` the entry for `x` sits in the global
scope, beyond the 2 active namespace boundaries, and the climb count of
`super::x` is 1 — yet `get_ref` returns nothing (the claim asserts the
entry would still be returned thanks to a floor at zero; the source
decrements the signed climb count below zero instead). -/
theorem c1_counterexample :
    lookupVar scopeX1.vars ['x'] = some (VariableType.Str ['1'])
    ∧ countNs (activeScopes vC1x) = 2
    ∧ get_ref vC1x (superTimes 1 ['x']) = none :=
  ⟨rfl, rfl, rfl⟩

/-- C1 (amended): `get_ref` strips `super::`* k (climb count `k`) and
`global::` (climb count = number of active namespace boundaries) and
walks the active scopes from the current one outward; a non-function
match is returned exactly when the number of namespace-boundary scopes
crossed before it equals the climb count — the count is decremented
without a floor, so an entry beyond more boundaries than the climb
count is never returned. -/
theorem c1_get_ref_climb :
    (∀ (v : Variables) (k : Nat) (n : RStr),
      startsWithSuper n = false → startsWithGlobal n = false →
      get_ref v (superTimes k n) = get_refWalk (activeScopes v) n (k : Int))
    ∧ (∀ (v : Variables) (n : RStr),
      get_ref v ('g' :: 'l' :: 'o' :: 'b' :: 'a' :: 'l' :: ':' :: ':' :: n)
        = get_refWalk (activeScopes v) n (countNs (activeScopes v) : Int))
    ∧ (∀ (ws : List Scope) (n : RStr) (u : Int) (val : VariableType),
      get_refWalk ws n u = some val → (∀ f, val ≠ VariableType.Function f) →
      ∃ p s, ws[p]? = some s ∧ lookupVar s.vars n = some val ∧
        (countNs (List.take p ws) : Int) = u) :=
  ⟨get_ref_superTimes, get_ref_global, get_refWalk_some_char⟩

/-- Witness for C1: the qualifier stripping evaluated on the concrete
store `vC1x`, plus the climb-count characterisation at a concrete
successful lookup. -/
theorem c1_get_ref_climb_witness :
    (get_ref vC1x (superTimes 1 ['x']) = get_refWalk (activeScopes vC1x) ['x'] 1)
    ∧ ∃ p s, (activeScopes vC1x)[p]? = some s
        ∧ lookupVar s.vars ['x'] = some (VariableType.Str ['1'])
        ∧ (countNs (List.take p (activeScopes vC1x)) : Int) = 2 :=
  ⟨c1_get_ref_climb.1 vC1x 1 ['x'] rfl rfl,
   c1_get_ref_climb.2.2 (activeScopes vC1x) ['x'] 2 (VariableType.Str ['1']) rfl
     (fun f h => by simp at h)⟩

/-! ### C5 -/

/-- C5: an unqualified `get_ref` can return a non-function value only
from a scope reached before crossing any namespace boundary (so no
entry declared outside a `namespace=true` scope is visible), while a
matching function in the first scope that binds the name is returned
for every climb count, through any boundaries. -/
theorem c5_namespace_isolation :
    (∀ (v : Variables) (n : RStr) (val : VariableType),
      startsWithSuper n = false → startsWithGlobal n = false →
      get_ref v n = some val → (∀ f, val ≠ VariableType.Function f) →
      ∃ p s, (activeScopes v)[p]? = some s ∧ lookupVar s.vars n = some val ∧
        countNs (List.take p (activeScopes v)) = 0)
    ∧ (∀ (v : Variables) (k : Nat) (n : RStr) (p : Nat) (s : Scope) (f : Nat),
      startsWithSuper n = false → startsWithGlobal n = false →
      (activeScopes v)[p]? = some s → lookupVar s.vars n = some (VariableType.Function f) →
      (∀ q, q < p → ∀ s', (activeScopes v)[q]? = some s' → lookupVar s'.vars n = none) →
      get_ref v (superTimes k n) = some (VariableType.Function f)) := by
  constructor
  · intro v n val h1 h2 h3 hnf
    have he := get_ref_superTimes v 0 n h1 h2
    simp only [superTimes, Nat.cast_zero] at he
    rw [he] at h3
    obtain ⟨p, s, hp, hl, hc⟩ := get_refWalk_some_char (activeScopes v) n 0 val h3 hnf
    exact ⟨p, s, hp, hl, by exact_mod_cast hc⟩
  · intro v k n p s f h1 h2 hp hl hq
    rw [get_ref_superTimes v k n h1 h2]
    exact get_refWalk_function_first (activeScopes v) p n (k : Int) s f hp hl hq

/-- Witness for C5: in `vFn` the function `f` declared outside the
boundary is returned by an unqualified and by a `super::`-qualified
lookup. -/
theorem c5_namespace_isolation_witness :
    get_ref vFn (superTimes 1 ['f']) = some (VariableType.Function 7) :=
  c5_namespace_isolation.2 vFn 1 ['f'] 1 scopeFn 7 rfl rfl (by simp [vFn, activeScopes]) rfl
    (by
      intro q hq s' hs'
      interval_cases q
      simp [vFn, activeScopes, emptyNsScope, scopeFn] at hs'
      simp [← hs', emptyNsScope, lookupVar, alookup])

/-! ### C2 -/

/-- C2: `get_mut` refuses `super::`/`global::`-qualified names; for
any other name it returns exactly the first matching entry of the
outward walk, every scope visited before it being boundary-free and
match-free; a match in a boundary scope itself is returned, and a
boundary crossed without a match ends the walk with no result even
when an entry exists further out. -/
theorem c2_get_mut_walk :
    (∀ (v : Variables) (n : RStr),
      (startsWithSuper n || startsWithGlobal n) = true → get_mutIdx v n = none)
    ∧ (∀ (v : Variables) (n : RStr) (p : Nat) (val : VariableType),
      get_mutIdx v n = some (p, val) →
      ∃ s, (activeScopes v)[p]? = some s ∧ lookupVar s.vars n = some val ∧
        ∀ q, q < p → ∀ s', (activeScopes v)[q]? = some s' →
          lookupVar s'.vars n = none ∧ s'.nspace = false)
    ∧ (∀ (v : Variables) (n : RStr) (p : Nat) (s : Scope) (val : VariableType),
      startsWithSuper n = false → startsWithGlobal n = false →
      (activeScopes v)[p]? = some s → lookupVar s.vars n = some val →
      (∀ q, q < p → ∀ s', (activeScopes v)[q]? = some s' →
        lookupVar s'.vars n = none ∧ s'.nspace = false) →
      get_mutIdx v n = some (p, val))
    ∧ (∀ (v : Variables) (n : RStr) (b : Nat) (sB : Scope),
      startsWithSuper n = false → startsWithGlobal n = false →
      (activeScopes v)[b]? = some sB → sB.nspace = true →
      (∀ q, q ≤ b → ∀ s', (activeScopes v)[q]? = some s' → lookupVar s'.vars n = none) →
      (∀ q, q < b → ∀ s', (activeScopes v)[q]? = some s' → s'.nspace = false) →
      get_mutIdx v n = none) := by
  refine ⟨?_, ?_, ?_, ?_⟩
  · intro v n h
    simp [get_mutIdx, h]
  · intro v n p val h
    by_cases hc : startsWithSuper n || startsWithGlobal n
    · simp [get_mutIdx, hc] at h
    · rw [get_mutIdx, if_neg hc] at h
      exact get_mutWalk_some (activeScopes v) n p val h
  · intro v n p s val h1 h2 hp hl hq
    rw [get_mutIdx, if_neg (by simp [h1, h2])]
    exact get_mutWalk_found (activeScopes v) n p s val hp hl hq
  · intro v n b sB h1 h2 hb hns hq hq'
    rw [get_mutIdx, if_neg (by simp [h1, h2])]
    exact get_mutWalk_boundary (activeScopes v) n b sB hb hns hq hq'

/-- Witness for C2: in `vC2w` the current scope is itself a namespace
boundary binding `x`; `get_mut` returns that very entry. -/
theorem c2_get_mut_walk_witness :
    get_mutIdx vC2w ['x'] = some (0, VariableType.Str ['2']) :=
  c2_get_mut_walk.2.2.1 vC2w ['x'] 0 scopeX2ns (VariableType.Str ['2']) rfl rfl
    (by simp [vC2w, activeScopes]) rfl (by omega)

/-! ### C6 -/

/-- C6 counterexample: in `vC6x` the entry for `x` lies beyond the
first namespace boundary, so the `get_mut` walk finds nothing — yet
`remove_variable` deletes and returns it (the claim asserts `remove`
performs the same boundary-stopping walk as `get_mut`). -/
theorem c6_counterexample :
    get_mutIdx vC6x ['x'] = none
    ∧ (remove_variable vC6x ['x']).1 = some (VariableType.Str ['1']) :=
  ⟨rfl, rfl⟩

/-- C6 (amended): `remove_variable` walks every active scope from the
current one outward, with no stop at namespace boundaries; it deletes
the first matching entry — even one beyond the first boundary — and
returns it, and leaves the store unchanged when no active scope binds
the name. -/
theorem c6_remove_walk :
    (∀ (v : Variables) (n : RStr) (p : Nat) (s : Scope) (val : VariableType),
      (activeScopes v)[p]? = some s → lookupVar s.vars n = some val →
      (∀ q, q < p → ∀ s', (activeScopes v)[q]? = some s' → lookupVar s'.vars n = none) →
      remove_variable v n = (some val,
        withActive v (updateAt (activeScopes v) p (fun s => { s with vars := eraseVar s.vars n }))))
    ∧ (∀ (v : Variables) (n : RStr),
      (∀ (q : Nat) (s' : Scope), (activeScopes v)[q]? = some s' → lookupVar s'.vars n = none) →
      remove_variable v n = (none, v)) := by
  constructor
  · intro v n p s val hp hl hq
    simp [remove_variable, removeWalk_found (activeScopes v) n p s val hp hl hq]
  · intro v n hq
    simp [remove_variable, removeWalk_none (activeScopes v) n hq, withActive_self]

/-- Witness for C6: `remove_variable` on `vC6x` deletes the entry that
sits beyond the namespace boundary. -/
theorem c6_remove_walk_witness :
    remove_variable vC6x ['x'] = (some (VariableType.Str ['1']),
      withActive vC6x (updateAt (activeScopes vC6x) 1
        (fun s => { s with vars := eraseVar s.vars ['x'] }))) :=
  c6_remove_walk.1 vC6x ['x'] 1 scopeX1 (VariableType.Str ['1'])
    (by simp [vC6x, activeScopes]) rfl
    (by
      intro q hq s' hs'
      interval_cases q
      simp [vC6x, activeScopes, emptyNsScope, scopeX1] at hs'
      simp [← hs', emptyNsScope, lookupVar, alookup])

/-! ### Helper lemmas about assignment -/

theorem get_mutIdx_facts (v : Variables) (n : RStr) (pv : Nat × VariableType)
    (h : get_mutIdx v n = some pv) :
    startsWithSuper n = false ∧ startsWithGlobal n = false ∧
      get_mutWalk (activeScopes v) n = some pv := by
  by_cases hc : startsWithSuper n || startsWithGlobal n
  · simp [get_mutIdx, hc] at h
  · rw [get_mutIdx, if_neg hc] at h
    simp only [Bool.or_eq_true, not_or, Bool.not_eq_true] at hc
    exact ⟨hc.1, hc.2, h⟩

theorem get_ref_unqualified (v : Variables) (n : RStr)
    (h1 : startsWithSuper n = false) (h2 : startsWithGlobal n = false) :
    get_ref v n = get_refWalk (activeScopes v) n 0 := by
  have h := get_ref_superTimes v 0 n h1 h2
  simpa [superTimes] using h

theorem activeScopes_updateSlot (v : Variables) (p : Nat) (n : RStr) (val : VariableType)
    (hwf : wf v) :
    activeScopes (updateSlot v p n val)
      = updateAt (activeScopes v) p (fun s => { s with vars := insertVar s.vars n val }) := by
  unfold updateSlot
  exact activeScopes_withActive v _ (by rw [length_updateAt, length_activeScopes v hwf])

theorem shadow_eq_updateSlot (v : Variables) (n : RStr) (val : VariableType) :
    shadow v n val = updateSlot v 0 n val := rfl

theorem get_ref_updateSlot (v : Variables) (n : RStr) (p : Nat) (w val : VariableType)
    (hwf : wf v) (hmut : get_mutIdx v n = some (p, w)) :
    get_ref (updateSlot v p n val) n = some val := by
  obtain ⟨h1, h2, hwalk⟩ := get_mutIdx_facts v n (p, w) hmut
  rw [get_ref_unqualified _ n h1 h2, activeScopes_updateSlot v p n val hwf]
  exact get_refWalk_update_found (activeScopes v) n p w val hwalk

theorem get_ref_shadow (v : Variables) (n : RStr) (val : VariableType) (hwf : wf v)
    (h1 : startsWithSuper n = false) (h2 : startsWithGlobal n = false) :
    get_ref (shadow v n val) n = some val := by
  rw [shadow_eq_updateSlot, get_ref_unqualified _ n h1 h2, activeScopes_updateSlot v 0 n val hwf]
  apply get_refWalk_update_head
  intro hnil
  have hlen := length_activeScopes v hwf
  rw [hnil] at hlen
  simp at hlen

/-! ### C3 -/

/-- A store with a single empty scope. -/
def vEmptyStore : Variables :=
  { flags := false, scopes := [{ vars := [], nspace := false }], current := 0 }

/-- A single-scope store binding `FOO` to the string `OLD`. -/
def vFoo : Variables :=
  { flags := false,
    scopes := [{ vars := [(("FOO".toList), VariableType.Str ("OLD".toList))], nspace := false }],
    current := 0 }

/-- A single-scope store binding `NS_PLUGINS` to the string `x`. -/
def vNSP : Variables :=
  { flags := false,
    scopes := [{ vars := [(("NS_PLUGINS".toList), VariableType.Str ['x'])], nspace := false }],
    current := 0 }

/-- C3 counterexample: for a name with no visible entry, `set(n,
empty-string)` does not leave `get(n)` absent — the wildcard arm of
`set` shadows the empty string into the current scope, and the
subsequent lookup returns it. -/
theorem c3_counterexample :
    get_mutIdx vEmptyStore ("FOO".toList) = none
    ∧ getString sysEmpty (set vEmptyStore ("FOO".toList) (VariableType.Str []))
        ("FOO".toList) = some [] :=
  ⟨rfl, rfl⟩

/-- C3 (amended): for a name whose visible entry (per `get_mut`) is a
string, alias, array, keyed map or function, a same-kind assignment
overwrites the slot in place, except that an empty string, empty array
or empty keyed map deletes the variable (after which the local scope no
longer binds it); an ordered-map entry is never overwritten in place —
every assignment over it shadows; a kind mismatch shadows; with no
visible entry, `set` shadows — so `set(n, empty-string)` then leaves an
empty string bound in the local scope rather than the name absent. -/
theorem c3_set_behavior :
    (∀ (v : Variables) (n : RStr) (p : Nat) (s0 : RStr),
      get_mutIdx v n = some (p, VariableType.Str s0) → n ≠ [] →
      set v n (VariableType.Str []) = (remove_variable v n).2)
    ∧ (∀ (v : Variables) (n : RStr) (p : Nat) (s0 : RStr),
      wf v → get_mutIdx v n = some (p, VariableType.Str s0) → n ≠ [] →
      ∀ s, (activeScopes (set v n (VariableType.Str [])))[0]? = some s →
        lookupVar s.vars n = none)
    ∧ (∀ (v : Variables) (n : RStr) (p : Nat) (m0 : List (RStr × VariableType))
        (val : VariableType),
      get_mutIdx v n = some (p, VariableType.BTreeMap m0) →
      set v n val = shadow v n val)
    ∧ (∀ (v : Variables) (n : RStr) (p : Nat) (w val : VariableType) (kw kv : VKind),
      get_mutIdx v n = some (p, w) → n ≠ [] →
      kindOf w = some kw → kindOf val = some kv → kw ≠ kv → kw ≠ VKind.bTreeMap →
      set v n val = shadow v n val)
    ∧ (∀ (v : Variables) (n : RStr) (p : Nat) (s0 s : RStr),
      get_mutIdx v n = some (p, VariableType.Str s0) → n ≠ [] →
      n ≠ ("NS_PLUGINS".toList) → s ≠ [] →
      set v n (VariableType.Str s) = updateSlot v p n (VariableType.Str s))
    ∧ (∀ (v : Variables) (n : RStr) (p : Nat) (a0 a : RStr),
      get_mutIdx v n = some (p, VariableType.Alias a0) → n ≠ [] →
      set v n (VariableType.Alias a) = updateSlot v p n (VariableType.Alias a))
    ∧ (∀ (v : Variables) (n : RStr) (p : Nat) (x0 : List RStr) (xs : List RStr),
      get_mutIdx v n = some (p, VariableType.Array x0) → n ≠ [] → xs ≠ [] →
      set v n (VariableType.Array xs) = updateSlot v p n (VariableType.Array xs))
    ∧ (∀ (v : Variables) (n : RStr) (p : Nat) (m0 m : List (RStr × VariableType)),
      get_mutIdx v n = some (p, VariableType.HashMap m0) → n ≠ [] → m.isEmpty = false →
      set v n (VariableType.HashMap m) = updateSlot v p n (VariableType.HashMap m))
    ∧ (∀ (v : Variables) (n : RStr) (p : Nat) (f0 f : Nat),
      get_mutIdx v n = some (p, VariableType.Function f0) → n ≠ [] →
      set v n (VariableType.Function f) = updateSlot v p n (VariableType.Function f))
    ∧ (∀ (v : Variables) (n : RStr) (p : Nat) (x0 : List RStr),
      get_mutIdx v n = some (p, VariableType.Array x0) → n ≠ [] →
      set v n (VariableType.Array []) = (remove_variable v n).2)
    ∧ (∀ (v : Variables) (n : RStr) (p : Nat) (m0 : List (RStr × VariableType)),
      get_mutIdx v n = some (p, VariableType.HashMap m0) → n ≠ [] →
      set v n (VariableType.HashMap []) = (remove_variable v n).2)
    ∧ (∀ (v : Variables) (n : RStr) (val : VariableType),
      get_mutIdx v n = none → set v n val = shadow v n val) := by
  refine ⟨?_, ?_, ?_, ?_, ?_, ?_, ?_, ?_, ?_, ?_, ?_, ?_⟩
  · intro v n p s0 hmut hn
    simp [set, hmut, hn]
  · intro v n p s0 hwf hmut hn s hs
    have hred : set v n (VariableType.Str []) = (remove_variable v n).2 := by
      simp [set, hmut, hn]
    rw [hred] at hs
    obtain ⟨h1, h2, hwalk⟩ := get_mutIdx_facts v n _ hmut
    obtain ⟨sp, hp, hl, hq⟩ := get_mutWalk_some _ n p _ hwalk
    have hrw := removeWalk_found (activeScopes v) n p sp (VariableType.Str s0) hp hl
      (fun q hqp s' hs' => (hq q hqp s' hs').1)
    have hrv : (remove_variable v n).2
        = withActive v (updateAt (activeScopes v) p
            (fun s => { s with vars := eraseVar s.vars n })) := by
      simp [remove_variable, hrw]
    rw [hrv, activeScopes_withActive v _
      (by rw [length_updateAt, length_activeScopes v hwf])] at hs
    cases p with
    | zero =>
      cases hws : activeScopes v with
      | nil => rw [hws] at hp; simp at hp
      | cons sh rest =>
        rw [hws] at hs hp
        simp [updateAt] at hs hp
        rw [← hs, hp]
        exact lookupVar_eraseVar_self sp.vars n
    | succ q =>
      cases hws : activeScopes v with
      | nil => rw [hws] at hp; simp at hp
      | cons sh rest =>
        rw [hws] at hs hq
        simp [updateAt] at hs
        rw [← hs]
        exact (hq 0 (Nat.succ_pos q) sh (by simp)).1
  · intro v n p m0 val hmut
    simp [set, hmut]
  · intro v n p w val kw kv hmut hn hkw hkv hneq hbt
    cases w <;> cases val <;> simp_all [set, kindOf]
  · intro v n p s0 s hmut hn hns hs
    have hns' : n ≠ ['N', 'S', '_', 'P', 'L', 'U', 'G', 'I', 'N', 'S'] := by simpa using hns
    simp [set, hmut, hn, hns', hs]
  · intro v n p a0 a hmut hn
    simp [set, hmut, hn]
  · intro v n p x0 xs hmut hn hxs
    simp [set, hmut, hn, hxs]
  · intro v n p m0 m hmut hn hm
    simp [set, hmut, hn, hm]
  · intro v n p f0 f hmut hn
    simp [set, hmut, hn]
  · intro v n p x0 hmut hn
    simp [set, hmut, hn]
  · intro v n p m0 hmut hn
    simp [set, hmut, hn]
  · intro v n val hmut
    simp [set, hmut]

/-- Witness for C3: deleting `FOO` from `vFoo` by assigning the empty
string equals removing it. -/
theorem c3_set_behavior_witness :
    set vFoo ("FOO".toList) (VariableType.Str []) = (remove_variable vFoo ("FOO".toList)).2 :=
  c3_set_behavior.1 vFoo ("FOO".toList) 0 ("OLD".toList) rfl (by decide)

/-! ### C4 -/

/-- C4 counterexample: `NS_PLUGINS` has a visible string entry and is
assigned the non-empty string `1` of matching kind, yet `get` still
returns the old value `x` — the assignment is intercepted to toggle the
plugin flag and stores nothing. -/
theorem c4_counterexample :
    getString sysEmpty (set vNSP ("NS_PLUGINS".toList) (VariableType.Str ['1']))
        ("NS_PLUGINS".toList) = some ['x']
    ∧ (['x'] : RStr) ≠ ['1']
    ∧ has_plugin_support (set vNSP ("NS_PLUGINS".toList) (VariableType.Str ['1'])) = true :=
  ⟨rfl, by decide, rfl⟩

/-- C4 (amended): for every non-empty name other than `NS_PLUGINS`,
`MWD` and `SWD` that contains no `::`, immediately after `set(n, v)`
where `v` is non-empty and of the same kind as the entry located by
`get_mut`, `get(n)` at that kind returns `v` (ordered maps reach this
through shadowing rather than an in-place overwrite). -/
theorem c4_set_get_roundtrip (sys : Sys) (v : Variables) (n : RStr) (w val : VariableType)
    (p : Nat) (k : VKind)
    (hwf : wf v)
    (hmut : get_mutIdx v n = some (p, w))
    (hkw : kindOf w = some k) (hkv : kindOf val = some k)
    (hne : isEmptyValue val = false)
    (hn : n ≠ []) (hns : n ≠ ("NS_PLUGINS".toList))
    (hmwd : n ≠ ("MWD".toList)) (hswd : n ≠ ("SWD".toList))
    (hcc : splitNs n = none) :
    getOf sys (set v n val) k n = some val := by
  obtain ⟨h1, h2, hwalk⟩ := get_mutIdx_facts v n (p, w) hmut
  have hmwd' : n ≠ ['M', 'W', 'D'] := by simpa using hmwd
  have hswd' : n ≠ ['S', 'W', 'D'] := by simpa using hswd
  have hns' : n ≠ ['N', 'S', '_', 'P', 'L', 'U', 'G', 'I', 'N', 'S'] := by simpa using hns
  cases k with
  | str =>
    cases val <;> simp [kindOf] at hkv
    rename_i s
    cases w <;> simp [kindOf] at hkw
    have hsne : s ≠ [] := by simpa [isEmptyValue] using hne
    have hset : set v n (VariableType.Str s) = updateSlot v p n (VariableType.Str s) := by
      simp [set, hmut, hn, hns', hsne]
    rw [hset]
    have href := get_ref_updateSlot v n p _ (VariableType.Str s) hwf hmut
    simp [getOf, getString, hmwd', hswd', hcc, lookupString, href]
  | aliasK =>
    cases val <;> simp [kindOf] at hkv
    rename_i a
    cases w <;> simp [kindOf] at hkw
    have hset : set v n (VariableType.Alias a) = updateSlot v p n (VariableType.Alias a) := by
      simp [set, hmut, hn]
    rw [hset]
    have href := get_ref_updateSlot v n p _ (VariableType.Alias a) hwf hmut
    simp [getOf, href]
  | array =>
    cases val <;> simp [kindOf] at hkv
    rename_i xs
    cases w <;> simp [kindOf] at hkw
    have hxs : xs ≠ [] := by simpa [isEmptyValue] using hne
    have hset : set v n (VariableType.Array xs) = updateSlot v p n (VariableType.Array xs) := by
      simp [set, hmut, hn, hxs]
    rw [hset]
    have href := get_ref_updateSlot v n p _ (VariableType.Array xs) hwf hmut
    simp [getOf, href]
  | hashMap =>
    cases val <;> simp [kindOf] at hkv
    rename_i m
    cases w <;> simp [kindOf] at hkw
    have hm : m.isEmpty = false := by simpa [isEmptyValue] using hne
    have hset : set v n (VariableType.HashMap m) = updateSlot v p n (VariableType.HashMap m) := by
      simp [set, hmut, hn, hm]
    rw [hset]
    have href := get_ref_updateSlot v n p _ (VariableType.HashMap m) hwf hmut
    simp [getOf, href]
  | bTreeMap =>
    cases val <;> simp [kindOf] at hkv
    rename_i m
    cases w <;> simp [kindOf] at hkw
    have hset : set v n (VariableType.BTreeMap m) = shadow v n (VariableType.BTreeMap m) := by
      simp [set, hmut]
    rw [hset]
    have href := get_ref_shadow v n (VariableType.BTreeMap m) hwf h1 h2
    simp [getOf, href]
  | function =>
    cases val <;> simp [kindOf] at hkv
    rename_i f
    cases w <;> simp [kindOf] at hkw
    have hset : set v n (VariableType.Function f) = updateSlot v p n (VariableType.Function f) := by
      simp [set, hmut, hn]
    rw [hset]
    have href := get_ref_updateSlot v n p _ (VariableType.Function f) hwf hmut
    simp [getOf, href]

/-- Witness for C4: overwriting the string `FOO` in `vFoo` with `BAR`
and reading it back. -/
theorem c4_set_get_roundtrip_witness :
    getOf sysEmpty (set vFoo ("FOO".toList) (VariableType.Str ("BAR".toList))) VKind.str
        ("FOO".toList) = some (VariableType.Str ("BAR".toList)) :=
  c4_set_get_roundtrip sysEmpty vFoo ("FOO".toList) (VariableType.Str ("OLD".toList))
    (VariableType.Str ("BAR".toList)) 0 VKind.str Nat.one_pos rfl rfl rfl rfl
    (by decide) (by decide) (by decide) (by decide) rfl

/-! ### C7 -/

/-- Environment with `HOME=/h` and a `PWD` that repeats the home path
in a non-leading position. -/
def sysSwd : Sys :=
  { env := [(("HOME".toList), ("/h".toList)), (("PWD".toList), ("/h/x/h".toList))],
    users := [], colors := [], plugins := [], isRoot := false }

/-- C7: with `HOME=/h` and `PWD=/h/x/h`, the source's
`get_simplified_directory` substitutes **every** occurrence of the
home path (`str::replace` replaces all matches), producing `~/x~`
instead of the `~/x/h` promised by its own doc comment ("the leading
HOME prefix replaced with a tilde character") and by the claim. -/
theorem c7_swd_replaces_all :
    get_simplified_directory sysSwd vEmptyStore = some ("~/x~".toList)
    ∧ ("~/x~".toList : RStr) ≠ ("~/x/h".toList) :=
  ⟨rfl, by decide⟩

/-! ### C8 -/

theorem modifyHead_modifyHead {α : Type} (l : List α) (f g : α → α) :
    (l.modifyHead f).modifyHead g = l.modifyHead (fun x => g (f x)) := by
  cases l <;> simp [List.modifyHead]

theorem splitSlash_ne_nil : ∀ (s : RStr), splitSlash s ≠ []
  | [] => by simp [splitSlash]
  | c :: rest => by
    by_cases hc : c = '/'
    · simp [splitSlash, hc]
    · simp only [splitSlash, if_neg hc]
      cases hrec : splitSlash rest with
      | nil => exact absurd hrec (splitSlash_ne_nil rest)
      | cons h t => simp [List.modifyHead]

theorem splitSlash_append : ∀ (p x : RStr), '/' ∉ p →
    splitSlash (p ++ x) = (splitSlash x).modifyHead (fun seg => p ++ seg)
  | [], x, _ => by
    cases hx : splitSlash x with
    | nil => exact absurd hx (splitSlash_ne_nil x)
    | cons h t => simp [hx, List.modifyHead]
  | c :: p', x, hp => by
    rw [List.mem_cons, not_or] at hp
    obtain ⟨h1, h2⟩ := hp
    have hc : c ≠ '/' := fun h => h1 h.symm
    rw [List.cons_append]
    simp only [splitSlash, if_neg hc]
    rw [splitSlash_append p' x h2, modifyHead_modifyHead]
    simp [List.cons_append]

theorem mem_splitSlash_no_slash : ∀ (s : RStr) (seg : RStr), seg ∈ splitSlash s → '/' ∉ seg
  | [], seg, hmem => by
    simp [splitSlash] at hmem
    simp [hmem]
  | c :: rest, seg, hmem => by
    by_cases hc : c = '/'
    · simp only [splitSlash, if_pos hc] at hmem
      rcases List.mem_cons.mp hmem with h | h
      · simp [h]
      · exact mem_splitSlash_no_slash rest seg h
    · simp only [splitSlash, if_neg hc] at hmem
      cases hrec : splitSlash rest with
      | nil => exact absurd hrec (splitSlash_ne_nil rest)
      | cons h t =>
        rw [hrec] at hmem
        simp only [List.modifyHead] at hmem
        rcases List.mem_cons.mp hmem with hm | hm
        · subst hm
          intro hin
          rcases List.mem_cons.mp hin with hin | hin
          · exact hc hin.symm
          · exact mem_splitSlash_no_slash rest h (hrec ▸ List.mem_cons_self h t) hin
        · exact mem_splitSlash_no_slash rest seg (hrec ▸ List.mem_cons_of_mem h hm)

theorem splitSegs_single (last : RStr) (hl1 : last ≠ []) (hl2 : '/' ∉ last) :
    splitSegs last = [last] := by
  unfold splitSegs
  have h := splitSlash_append last [] hl2
  simp only [List.append_nil] at h
  rw [h]
  simp [splitSlash, List.modifyHead, List.filter_cons, hl1]

theorem splitSegs_cons_seg (c R : RStr) (hc1 : c ≠ []) (hc2 : '/' ∉ c) :
    splitSegs (c ++ ('/' :: R)) = c :: splitSegs R := by
  unfold splitSegs
  rw [splitSlash_append c _ hc2]
  rw [show splitSlash ('/' :: R) = [] :: splitSlash R from by simp [splitSlash]]
  simp [List.modifyHead, List.filter_cons, hc1]

theorem splitSegs_join : ∀ (cs : List RStr) (last : RStr),
    (∀ c ∈ cs, c ≠ [] ∧ '/' ∉ c) → last ≠ [] → '/' ∉ last →
    splitSegs ((cs.map (fun c => c ++ ['/'])).flatten ++ last) = cs ++ [last]
  | [], last, _, hl1, hl2 => by
    simpa using splitSegs_single last hl1 hl2
  | c :: cs', last, hcs, hl1, hl2 => by
    obtain ⟨hc1, hc2⟩ := hcs c (List.mem_cons_self c cs')
    have hcs' : ∀ d ∈ cs', d ≠ [] ∧ '/' ∉ d := fun d hd => hcs d (List.mem_cons_of_mem c hd)
    have hrw : ((c :: cs').map (fun c => c ++ ['/'])).flatten ++ last
        = c ++ ('/' :: ((cs'.map (fun c => c ++ ['/'])).flatten ++ last)) := by
      simp [List.append_assoc]
    rw [hrw, splitSegs_cons_seg c _ hc1 hc2, splitSegs_join cs' last hcs' hl1 hl2]
    rfl

theorem compressSeg_facts (e c : RStr) (h : compressSeg e = some c) (hsl : '/' ∉ e) :
    c ≠ [] ∧ '/' ∉ c ∧ compressSeg c = some c := by
  cases e with
  | nil => simp [compressSeg] at h
  | cons c1 rest =>
    rw [List.mem_cons, not_or] at hsl
    obtain ⟨hs1, hs2⟩ := hsl
    by_cases hdot : c1 = '.'
    · cases rest with
      | nil => simp [compressSeg, hdot] at h
      | cons d rest' =>
        simp only [compressSeg, if_pos hdot] at h
        rw [← Option.some.inj h]
        have hd : d ≠ '/' := by
          intro hd
          exact hs2 (hd ▸ List.mem_cons_self d rest')
        refine ⟨by simp, ?_, ?_⟩
        · intro hmem
          rcases List.mem_cons.mp hmem with hm | hm
          · exact hs1 hm
          · rcases List.mem_cons.mp hm with hm' | hm'
            · exact hd hm'.symm
            · simp at hm'
        · simp [compressSeg, hdot]
    · simp only [compressSeg, if_neg hdot] at h
      rw [← Option.some.inj h]
      refine ⟨by simp, ?_, by simp [compressSeg, hdot]⟩
      intro hmem
      rcases List.mem_cons.mp hmem with hm | hm
      · exact hs1 hm
      · simp at hm

theorem compressAll_facts : ∀ (es cs : List RStr), compressAll es = some cs →
    (∀ e ∈ es, '/' ∉ e) →
    (∀ c ∈ cs, c ≠ [] ∧ '/' ∉ c) ∧ compressAll cs = some cs ∧ cs.length = es.length
  | [], cs, h, _ => by
    simp only [compressAll, Option.some.injEq] at h
    subst h
    simp [compressAll]
  | e :: es', cs, h, hsl => by
    cases hce : compressSeg e with
    | none => simp [compressAll, hce] at h
    | some c =>
      cases hca : compressAll es' with
      | none => simp [compressAll, hce, hca] at h
      | some cs' =>
        simp only [compressAll, hce, hca] at h
        obtain ⟨hc1, hc2, hc3⟩ := compressSeg_facts e c hce (hsl e (List.mem_cons_self e es'))
        obtain ⟨hmem, hidem, hlen⟩ := compressAll_facts es' cs' hca
          (fun d hd => hsl d (List.mem_cons_of_mem e hd))
        rw [← Option.some.inj h]
        refine ⟨?_, ?_, by simp [hlen]⟩
        · intro d hd
          rcases List.mem_cons.mp hd with hm | hm
          · exact hm ▸ ⟨hc1, hc2⟩
          · exact hmem d hm
        · simp [compressAll, hc3, hidem]

theorem mem_splitSegs_facts (s : RStr) (seg : RStr) (h : seg ∈ splitSegs s) :
    seg ≠ [] ∧ '/' ∉ seg := by
  unfold splitSegs at h
  obtain ⟨hmem, hpred⟩ := List.mem_filter.mp h
  exact ⟨by simpa using hpred, mem_splitSlash_no_slash s seg hmem⟩

theorem minimize_idem (s t : RStr) (h : minimize s = some t) : minimize t = some t := by
  unfold minimize at h
  by_cases hlen : 2 < (splitSegs s).length
  · rw [if_pos hlen] at h
    cases hca : compressAll (splitSegs s).dropLast with
    | none => rw [hca] at h; simp at h
    | some cs =>
      rw [hca] at h
      have hne : splitSegs s ≠ [] := by
        intro hnil
        rw [hnil] at hlen
        simp at hlen
      rcases List.eq_nil_or_concat (splitSegs s) with hnil | ⟨el0, lel, hel⟩
      · exact absurd hnil hne
      · rw [List.concat_eq_append] at hel
        have hfacts : ∀ seg ∈ splitSegs s, seg ≠ [] ∧ '/' ∉ seg := mem_splitSegs_facts s
        have hlelf : lel ≠ [] ∧ '/' ∉ lel := by
          refine hfacts lel ?_
          rw [hel]
          exact List.mem_append_right el0 (List.mem_singleton.mpr rfl)
        have hca0 : compressAll el0 = some cs := by
          rw [hel, List.dropLast_concat] at hca
          exact hca
        obtain ⟨hmemcs, hidem, hlencs⟩ := compressAll_facts el0 cs hca0
          (fun e he => (hfacts e (by rw [hel]; exact List.mem_append_left [lel] he)).2)
        have ht : t = (cs.map (fun c => c ++ ['/'])).flatten ++ lel := by
          rw [hel, List.getLastD_concat] at h
          exact (Option.some.inj h).symm
        have hsegt : splitSegs t = cs ++ [lel] := by
          rw [ht]
          exact splitSegs_join cs lel hmemcs hlelf.1 hlelf.2
        have hlent : 2 < (splitSegs t).length := by
          rw [hsegt]
          have : (splitSegs s).length = el0.length + 1 := by rw [hel]; simp
          simp only [List.length_append, List.length_singleton]
          omega
        have hlent2 : 2 < (cs ++ [lel]).length := by rw [← hsegt]; exact hlent
        unfold minimize
        rw [hsegt, if_pos hlent2, List.dropLast_concat, hidem, List.getLastD_concat]
        exact congrArg some ht.symm
  · rw [if_neg hlen] at h
    rw [← Option.some.inj h]
    unfold minimize
    rw [if_neg hlen]

/-- Environment with `PWD=/var/log/nix` (and no `HOME`, so the home
replacement target is the literal `?`, which does not occur). -/
def sysMwd1 : Sys :=
  { env := [(("PWD".toList), ("/var/log/nix".toList))],
    users := [], colors := [], plugins := [], isRoot := false }

/-- Environment with `PWD=/var/log`. -/
def sysMwd2 : Sys :=
  { env := [(("PWD".toList), ("/var/log".toList))],
    users := [], colors := [], plugins := [], isRoot := false }

/-- C8: `MWD` splits `SWD` on `/` dropping empty segments; with more
than two segments every parent segment is compressed to its first
grapheme cluster (two clusters when the first is `.`), giving
`v/l/nix` for `PWD=/var/log/nix`; with at most two segments `SWD` is
returned unchanged (`/var/log`); and the minimisation step is
idempotent. -/
theorem c8_mwd :
    get_minimal_directory sysMwd1 vEmptyStore = some ("v/l/nix".toList)
    ∧ get_minimal_directory sysMwd2 vEmptyStore = some ("/var/log".toList)
    ∧ (∀ s : RStr, ¬2 < (splitSegs s).length → minimize s = some s)
    ∧ (∀ s t : RStr, minimize s = some t → minimize t = some t) :=
  ⟨rfl, rfl, fun s h => by simp [minimize, h], minimize_idem⟩

/-- Witness for C8: idempotence applied to the concrete minimisation
of `/var/log/nix`, and the small-path identity applied to `/var/log`. -/
theorem c8_mwd_witness :
    minimize ("v/l/nix".toList) = some ("v/l/nix".toList)
    ∧ minimize ("/var/log".toList) = some ("/var/log".toList) :=
  ⟨c8_mwd.2.2.2 ("/var/log/nix".toList) ("v/l/nix".toList) rfl,
   c8_mwd.2.2.1 ("/var/log".toList) (by decide)⟩

/-! ### C9 -/

/-- C9: dispatch of the bare tilde prefixes — `~+` falls back to the
literal `?` when `PWD` is unset, while `~-` with `OLDPWD` unset and
`~` with the home directory unset return absent; the `?` fallback
exists only in the `~+` branch. -/
theorem c9_tilde_fallbacks :
    (∀ (sys : Sys) (v : Variables) (ds : List RStr) (r : RStr),
      (r = [] ∨ r.head? = some '/' ∨ r.head? = some '$') →
      envVar sys ("PWD".toList) = none →
      tilde_expansion sys v ds ('~' :: '+' :: r) = some ('?' :: r))
    ∧ (∀ (sys : Sys) (v : Variables) (ds : List RStr) (r : RStr),
      (r = [] ∨ r.head? = some '/' ∨ r.head? = some '$') →
      getString sys v ("OLDPWD".toList) = none →
      tilde_expansion sys v ds ('~' :: '-' :: r) = none)
    ∧ (∀ (sys : Sys) (v : Variables) (ds : List RStr) (r : RStr),
      (r = [] ∨ r.head? = some '/' ∨ r.head? = some '$') →
      envVar sys ("HOME".toList) = none →
      tilde_expansion sys v ds ('~' :: r) = none) := by
  refine ⟨?_, ?_, ?_⟩
  · intro sys v ds r hr hpwd
    replace hpwd : envVar sys ['P', 'W', 'D'] = none := by simpa using hpwd
    rcases hr with rfl | hr | hr
    · simp [tilde_expansion, findSepIdx, hpwd]
    · cases r with
      | nil => simp at hr
      | cons c r' =>
        simp only [List.head?_cons, Option.some.injEq] at hr
        subst hr
        simp [tilde_expansion, findSepIdx, hpwd]
    · cases r with
      | nil => simp at hr
      | cons c r' =>
        simp only [List.head?_cons, Option.some.injEq] at hr
        subst hr
        simp [tilde_expansion, findSepIdx, hpwd]
  · intro sys v ds r hr hold
    replace hold : getString sys v ['O', 'L', 'D', 'P', 'W', 'D'] = none := by simpa using hold
    rcases hr with rfl | hr | hr
    · simp [tilde_expansion, findSepIdx, hold]
    · cases r with
      | nil => simp at hr
      | cons c r' =>
        simp only [List.head?_cons, Option.some.injEq] at hr
        subst hr
        simp [tilde_expansion, findSepIdx, hold]
    · cases r with
      | nil => simp at hr
      | cons c r' =>
        simp only [List.head?_cons, Option.some.injEq] at hr
        subst hr
        simp [tilde_expansion, findSepIdx, hold]
  · intro sys v ds r hr hhome
    replace hhome : envVar sys ['H', 'O', 'M', 'E'] = none := by simpa using hhome
    rcases hr with rfl | hr | hr
    · simp [tilde_expansion, findSepIdx, homeDir, hhome]
    · cases r with
      | nil => simp at hr
      | cons c r' =>
        simp only [List.head?_cons, Option.some.injEq] at hr
        subst hr
        simp [tilde_expansion, findSepIdx, homeDir, hhome]
    · cases r with
      | nil => simp at hr
      | cons c r' =>
        simp only [List.head?_cons, Option.some.injEq] at hr
        subst hr
        simp [tilde_expansion, findSepIdx, homeDir, hhome]

/-- Witness for C9: the three fallbacks evaluated in the empty
environment. -/
theorem c9_tilde_fallbacks_witness :
    tilde_expansion sysEmpty vEmptyStore [] ['~', '+'] = some ['?']
    ∧ tilde_expansion sysEmpty vEmptyStore [] ['~', '-'] = none
    ∧ tilde_expansion sysEmpty vEmptyStore [] ['~'] = none :=
  ⟨c9_tilde_fallbacks.1 sysEmpty vEmptyStore [] [] (Or.inl rfl) rfl,
   c9_tilde_fallbacks.2.1 sysEmpty vEmptyStore [] [] (Or.inl rfl) rfl,
   c9_tilde_fallbacks.2.2 sysEmpty vEmptyStore [] [] (Or.inl rfl) rfl⟩

/-! ### C10 -/

/-- The retained-slot invariant: every scope strictly above the cursor
has an empty variable map. -/
def scopesInv (v : Variables) : Prop :=
  ∀ (i : Nat) (s : Scope), v.current < i → v.scopes[i]? = some s → s.vars = []

theorem getElem?_updateAt_ne {α : Type} : ∀ (l : List α) (j i : Nat) (f : α → α),
    i ≠ j → (updateAt l j f)[i]? = l[i]?
  | [], _, _, _, _ => by simp [updateAt]
  | a :: rest, 0, i, f, hne => by
    cases i with
    | zero => exact absurd rfl hne
    | succ k => simp [updateAt]
  | a :: rest, Nat.succ j, i, f, hne => by
    cases i with
    | zero => simp [updateAt]
    | succ k => simpa [updateAt] using getElem?_updateAt_ne rest j k f (by omega)

theorem getElem?_updateAt_self {α : Type} : ∀ (l : List α) (j : Nat) (f : α → α),
    (updateAt l j f)[j]? = (l[j]?).map f
  | [], _, _ => by simp [updateAt]
  | a :: rest, 0, f => by simp [updateAt]
  | a :: rest, Nat.succ j, f => by simpa [updateAt] using getElem?_updateAt_self rest j f

theorem scopesInv_wf_withActive (v : Variables) (ws : List Scope)
    (_hwf : wf v) (hinv : scopesInv v) (hlen : ws.length = v.current + 1) :
    scopesInv (withActive v ws) ∧ wf (withActive v ws) := by
  constructor
  · intro i s hi hs
    rw [show (withActive v ws).current = v.current from rfl] at hi
    rw [scopes_withActive_high v ws i hlen hi] at hs
    exact hinv i s hi hs
  · show (withActive v ws).current < (withActive v ws).scopes.length
    simp only [withActive, List.length_append, List.length_reverse, List.length_drop, hlen]
    omega

theorem scopesInv_wf_updateSlot (v : Variables) (p : Nat) (n : RStr) (val : VariableType)
    (hwf : wf v) (hinv : scopesInv v) :
    scopesInv (updateSlot v p n val) ∧ wf (updateSlot v p n val) :=
  scopesInv_wf_withActive v _ hwf hinv
    (by rw [length_updateAt, length_activeScopes v hwf])

theorem scopesInv_wf_remove (v : Variables) (n : RStr) (hwf : wf v) (hinv : scopesInv v) :
    scopesInv (remove_variable v n).2 ∧ wf (remove_variable v n).2 := by
  have h : (remove_variable v n).2 = withActive v (removeWalk (activeScopes v) n).2 := rfl
  rw [h]
  exact scopesInv_wf_withActive v _ hwf hinv
    (by rw [length_removeWalk, length_activeScopes v hwf])

theorem scopesInv_wf_shadow (v : Variables) (n : RStr) (val : VariableType)
    (hwf : wf v) (hinv : scopesInv v) :
    scopesInv (shadow v n val) ∧ wf (shadow v n val) := by
  rw [shadow_eq_updateSlot]
  exact scopesInv_wf_updateSlot v 0 n val hwf hinv

/-- C10: the retained-slot invariant — all scopes above the cursor are
empty — holds in the initial store and is preserved (together with the
cursor bound) by every public operation: `new_scope` (which may reuse
a retained slot, resetting only its namespace flag), `pop_scope`,
`pop_scopes`, `append_scopes`, `shadow`, `set` and `remove_variable`. -/
theorem c10_inactive_scopes_empty :
    (∀ globals, scopesInv (defaultVariables globals))
    ∧ (∀ (v : Variables) (b : Bool), wf v → scopesInv v →
      scopesInv (new_scope v b) ∧ wf (new_scope v b))
    ∧ (∀ v : Variables, wf v → scopesInv v → scopesInv (pop_scope v) ∧ wf (pop_scope v))
    ∧ (∀ (v : Variables) (index : Nat), scopesInv (pop_scopesOp v index).1
      ∧ (index < v.scopes.length → wf (pop_scopesOp v index).1))
    ∧ (∀ (v : Variables) (new : List Scope), wf v →
      scopesInv (append_scopes v new) ∧ wf (append_scopes v new))
    ∧ (∀ (v : Variables) (n : RStr) (val : VariableType), wf v → scopesInv v →
      scopesInv (shadow v n val) ∧ wf (shadow v n val))
    ∧ (∀ (v : Variables) (n : RStr) (val : VariableType), wf v → scopesInv v →
      scopesInv (set v n val) ∧ wf (set v n val))
    ∧ (∀ (v : Variables) (n : RStr), wf v → scopesInv v →
      scopesInv (remove_variable v n).2 ∧ wf (remove_variable v n).2) := by
  refine ⟨?_, ?_, ?_, ?_, ?_, ?_, ?_, ?_⟩
  · intro globals i s hi hs
    cases i with
    | zero => omega
    | succ j =>
      simp only [defaultVariables] at hs
      rw [List.getElem?_cons_succ] at hs
      simp at hs
  · intro v b hwf hinv
    unfold wf at hwf
    unfold new_scope
    by_cases hc : v.scopes.length ≤ v.current + 1
    · rw [if_pos hc]
      constructor
      · intro i s hi hs
        simp only at hi hs
        have hilen : v.scopes.length + 1 ≤ i := by omega
        rw [List.getElem?_eq_none (by simpa using hilen)] at hs
        exact absurd hs (by simp)
      · show v.current + 1 < (v.scopes ++ [({ vars := [], nspace := b } : Scope)]).length
        rw [List.length_append]
        simp only [List.length_singleton]
        omega
    · rw [if_neg hc]
      constructor
      · intro i s hi hs
        simp only at hi hs
        rw [getElem?_updateAt_ne v.scopes (v.current + 1) i _ (by omega)] at hs
        exact hinv i s (by omega) hs
      · show v.current + 1 < (updateAt v.scopes (v.current + 1) _).length
        rw [length_updateAt]
        omega
  · intro v hwf hinv
    unfold wf at hwf
    constructor
    · intro i s hi hs
      simp only [pop_scope] at hi hs
      by_cases hic : i = v.current
      · rw [hic, getElem?_updateAt_self] at hs
        cases hv : v.scopes[v.current]? with
        | none => rw [hv] at hs; simp at hs
        | some s0 =>
          rw [hv] at hs
          simp only [Option.map_some'] at hs
          rw [← Option.some.inj hs]
      · rw [getElem?_updateAt_ne v.scopes v.current i _ hic] at hs
        exact hinv i s (by omega) hs
    · show v.current - 1 < (updateAt v.scopes v.current _).length
      rw [length_updateAt]
      omega
  · intro v index
    constructor
    · intro i s hi hs
      simp only [pop_scopesOp] at hi hs
      rw [List.getElem?_eq_none
        (le_trans (List.length_take_le (index + 1) v.scopes) (by omega))] at hs
      exact absurd hs (by simp)
    · intro hlt
      show index < (v.scopes.take (index + 1)).length
      rw [List.length_take]
      omega
  · intro v new hwf
    unfold wf at hwf
    constructor
    · intro i s hi hs
      simp only [append_scopes] at hi hs
      have hlen : (v.scopes.take (v.current + 1) ++ new).length = v.current + 1 + new.length := by
        rw [List.length_append, List.length_take]
        omega
      rw [List.getElem?_eq_none (by omega : (v.scopes.take (v.current + 1) ++ new).length ≤ i)]
        at hs
      exact absurd hs (by simp)
    · show v.current + new.length < (v.scopes.take (v.current + 1) ++ new).length
      rw [List.length_append, List.length_take]
      omega
  · intro v n val hwf hinv
    exact scopesInv_wf_shadow v n val hwf hinv
  · intro v n val hwf hinv
    cases hmut : get_mutIdx v n with
    | none =>
      simp only [set, hmut]
      exact scopesInv_wf_shadow v n val hwf hinv
    | some pv =>
      obtain ⟨p, w⟩ := pv
      cases w with
      | Str s0 =>
        simp only [set, hmut]
        split
        · exact ⟨hinv, hwf⟩
        · split
          · split
            · exact scopesInv_wf_remove v n hwf hinv
            · split
              · split
                · exact ⟨hinv, hwf⟩
                · split
                  · exact ⟨hinv, hwf⟩
                  · exact ⟨hinv, hwf⟩
              · exact scopesInv_wf_updateSlot v p n _ hwf hinv
          · exact scopesInv_wf_shadow v n _ hwf hinv
      | Alias a0 =>
        simp only [set, hmut]
        split
        · exact ⟨hinv, hwf⟩
        · split
          · exact scopesInv_wf_updateSlot v p n _ hwf hinv
          · exact scopesInv_wf_shadow v n _ hwf hinv
      | Array x0 =>
        simp only [set, hmut]
        split
        · exact ⟨hinv, hwf⟩
        · split
          · split
            · exact scopesInv_wf_remove v n hwf hinv
            · exact scopesInv_wf_updateSlot v p n _ hwf hinv
          · exact scopesInv_wf_shadow v n _ hwf hinv
      | HashMap m0 =>
        simp only [set, hmut]
        split
        · exact ⟨hinv, hwf⟩
        · split
          · split
            · exact scopesInv_wf_remove v n hwf hinv
            · exact scopesInv_wf_updateSlot v p n _ hwf hinv
          · exact scopesInv_wf_shadow v n _ hwf hinv
      | Function f0 =>
        simp only [set, hmut]
        split
        · exact ⟨hinv, hwf⟩
        · split
          · exact scopesInv_wf_updateSlot v p n _ hwf hinv
          · exact scopesInv_wf_shadow v n _ hwf hinv
      | BTreeMap m0 =>
        simp only [set, hmut]
        exact scopesInv_wf_shadow v n val hwf hinv
      | None =>
        simp only [set, hmut]
        exact scopesInv_wf_shadow v n val hwf hinv
  · intro v n hwf hinv
    exact scopesInv_wf_remove v n hwf hinv

/-- Witness for C10: the invariant after pushing a namespace scope on
the concrete store `vFoo`. -/
theorem c10_inactive_scopes_empty_witness :
    scopesInv (new_scope vFoo true) ∧ wf (new_scope vFoo true) :=
  c10_inactive_scopes_empty.2.1 vFoo true Nat.one_pos
    (by
      intro i s hi hs
      cases i with
      | zero => omega
      | succ j => simp [vFoo] at hs)

end Ion
